import Mathlib

/-!
Verification development for the lexical analyser of the Hope language
front end (repository file src/hope/src/syntax/token.rs, a rule table for
the `logos` lexer generator, plus the driving iteration).

The data model (`Span`, `Pos`, `LexingError`, `Token`), the per-rule
matchers, the callbacks (`newline_callback`, `string_callback`,
`loc_callback`, `num_callback`) and the rule table are translated from the
source file.  The matching engine itself is generated at compile time by
the `#[derive(Logos)]` macro and is not present in the repository sources;
it is modelled from the spec's contract for the Scanner/Matcher (spec
section 4.2): at each step select the rule matching the longest prefix of
the remaining input, and among equal-length matches prefer the rule with
the higher priority, where an exact-text `#[token]` rule has priority
`2 * length` and the `#[regex]` rules have the priority logos derives from
the pattern (2 for the identifier, number and whitespace patterns, 4 for
the string pattern, 2 for the newline pattern).  Offsets are indices into
the list of characters of the input; for the ASCII inputs of every claim
they coincide with Rust's byte offsets.
-/

namespace Hope

/-- Span of a token: a half-open index range into the input.  Mirrors
`logos::Span = Range<usize>` with fields `start` and `end`; Lean reserves
`end`, so the second field is named `stop`. -/
structure Span where
  start : Nat
  stop : Nat
deriving DecidableEq, Repr

/-- Position record attached to every emitted token.  Mirrors `struct Pos`
(token.rs lines 4-9). -/
structure Pos where
  line : Nat
  column : Nat
  range : Span
deriving DecidableEq, Repr

/-- Mirrors `enum LexingError` (token.rs lines 11-17): `InvalidNumber`
carries diagnostic text, `UnrecognisedCharacter` is the `#[default]`
variant logos uses when no rule matches. -/
inductive LexingError where
  | InvalidNumber : String → LexingError
  | UnrecognisedCharacter : LexingError
deriving DecidableEq, Repr

/-- Mirrors `impl From<ParseFloatError> for LexingError` (token.rs lines
19-23).  The argument models the discarded `ParseFloatError` value (the
Rust impl binds it as `_`). -/
def LexingError.fromParseFloatError (_ : Unit) : LexingError :=
  LexingError.InvalidNumber "Invalid number: \x7b\x7d"

/-- Mirrors `enum Token` (token.rs lines 67-219).  Constructor names follow
the source, except that Rust's `String` and `Type` variants are named
`StringLit` and `TypeKw` (`String` would shadow the Lean string type inside
the namespace and `Type` is a Lean keyword).  The numeric payload is
modelled as a rational: the claims never depend on `f64` rounding, and on
every lexeme the number rule matches, Rust's float parse succeeds with the
decimal value the lexeme denotes. -/
inductive Token where
  | Newline : Token
  | Identifier : String × Pos → Token
  | StringLit : String × Pos → Token
  | Num : ℚ × Pos → Token
  | LParen : Pos → Token
  | RParen : Pos → Token
  | LSquare : Pos → Token
  | RSquare : Pos → Token
  | Comma : Pos → Token
  | SemiColon : Pos → Token
  | Bang : Pos → Token
  | PlusPlus : Pos → Token
  | TripleDash : Pos → Token
  | Colon : Pos → Token
  | LeftArrowFat : Pos → Token
  | EqEq : Pos → Token
  | RightArrowFat : Pos → Token
  | Pipe : Pos → Token
  | AbsType : Pos → Token
  | Data : Pos → Token
  | Dec : Pos → Token
  | Display : Pos → Token
  | Else : Pos → Token
  | Edit : Pos → Token
  | Exit : Pos → Token
  | If : Pos → Token
  | In : Pos → Token
  | Infix : Pos → Token
  | InfixR : Pos → Token
  | Lambda : Pos → Token
  | Let : Pos → Token
  | LetRec : Pos → Token
  | Private : Pos → Token
  | Save : Pos → Token
  | Then : Pos → Token
  | TypeKw : Pos → Token
  | TypeVar : Pos → Token
  | Uses : Pos → Token
  | Where : Pos → Token
  | WhereRec : Pos → Token
  | Write : Pos → Token
  | End : Pos → Token
  | Module : Pos → Token
  | NonOp : Pos → Token
  | PubConst : Pos → Token
  | PubFun : Pos → Token
  | PubType : Pos → Token
deriving DecidableEq, Repr

instance : DecidableEq (Except LexingError Token) := fun a b =>
  match a, b with
  | .ok x, .ok y => decidable_of_iff (x = y) (by simp)
  | .error x, .error y => decidable_of_iff (x = y) (by simp)
  | .ok _, .error _ => isFalse (by simp)
  | .error _, .ok _ => isFalse (by simp)

/-- Position carried by a token: every variant carries exactly one `Pos`
except the skip-only `Newline` control token, which carries none. -/
def Token.posOf : Token → Option Pos
  | .Newline => none
  | .Identifier (_, p) => some p
  | .StringLit (_, p) => some p
  | .Num (_, p) => some p
  | .LParen p => some p
  | .RParen p => some p
  | .LSquare p => some p
  | .RSquare p => some p
  | .Comma p => some p
  | .SemiColon p => some p
  | .Bang p => some p
  | .PlusPlus p => some p
  | .TripleDash p => some p
  | .Colon p => some p
  | .LeftArrowFat p => some p
  | .EqEq p => some p
  | .RightArrowFat p => some p
  | .Pipe p => some p
  | .AbsType p => some p
  | .Data p => some p
  | .Dec p => some p
  | .Display p => some p
  | .Else p => some p
  | .Edit p => some p
  | .Exit p => some p
  | .If p => some p
  | .In p => some p
  | .Infix p => some p
  | .InfixR p => some p
  | .Lambda p => some p
  | .Let p => some p
  | .LetRec p => some p
  | .Private p => some p
  | .Save p => some p
  | .Then p => some p
  | .TypeKw p => some p
  | .TypeVar p => some p
  | .Uses p => some p
  | .Where p => some p
  | .WhereRec p => some p
  | .Write p => some p
  | .End p => some p
  | .Module p => some p
  | .NonOp p => some p
  | .PubConst p => some p
  | .PubFun p => some p
  | .PubType p => some p

/-! Character classes of the rule patterns.  The POSIX classes
`[[:alpha:]]`, `[[:digit:]]`, `[[:word:]]` used in token.rs are the ASCII
classes (Lean's `Char.isAlpha` / `Char.isDigit` are exactly the ASCII
tests). -/

/-- Length of the longest prefix of `l` whose characters all satisfy `p`:
the match length of a greedy `p*`. -/
def countWhile (p : Char → Bool) : List Char → Nat
  | [] => 0
  | c :: cs => if p c then countWhile p cs + 1 else 0

/-- Word characters `[[:word:]]` = alphanumeric or underscore. -/
def isWordChar (c : Char) : Bool := c.isAlphanum || c == '_'

/-- Apostrophe, the trailing-quote class of the word-identifier pattern. -/
def isQuoteMark (c : Char) : Bool := c == '\''

/-- Horizontal whitespace `[ \t\f]`, the skip class of
`#[logos(skip r"[ \t\f]+", ...)]` (token.rs line 68). -/
def isHWs (c : Char) : Bool := c == ' ' || c == '\t' || c == '\x0c'

/-- Character class of the symbolic-identifier pattern
`[^[[:digit:]][[:alpha:]][ \t\n\f]!'"_\(\)\[\],;:|\\]+` (token.rs line 76):
anything that is not an ASCII digit or letter, not one of space, tab,
newline, form feed, and not one of the reserved characters. -/
def isOtherChar (c : Char) : Bool :=
  !c.isDigit && !c.isAlpha && !(isHWs c) && c != '\n' &&
    !(['!', '\'', '"', '_', '(', ')', '[', ']', ',', ';', ':', '|', '\\'].contains c)

/-- Unescaped string-literal content `[^"\\\x00-\x1F]` (token.rs line 79). -/
def isStrContent (c : Char) : Bool := c != '"' && c != '\\' && 31 < c.toNat

/-- Characters permitted after a backslash in a string literal:
`["\\bnfrt/]` (token.rs line 79). -/
def isEscChar (c : Char) : Bool :=
  ['"', '\\', 'b', 'n', 'f', 'r', 't', '/'].contains c

/-- Hexadecimal digit `[a-fA-F0-9]` of a `\uXXXX` escape. -/
def isHexDigit (c : Char) : Bool :=
  c.isDigit || ['a', 'b', 'c', 'd', 'e', 'f', 'A', 'B', 'C', 'D', 'E', 'F'].contains c

/-! Per-rule matchers.  Each returns the length of the longest prefix of
its argument matching the rule's pattern, or `none` when no prefix
matches. -/

/-- Matcher of the newline rule `#[regex(r"\n", newline_callback)]`
(token.rs line 71). -/
def matchNl : List Char → Option Nat
  | [] => none
  | c :: _ => if c == '\n' then some 1 else none

/-- Matcher of the skip pattern `[ \t\f]+`. -/
def matchWs (s : List Char) : Option Nat :=
  if countWhile isHWs s = 0 then none else some (countWhile isHWs s)

/-- Matcher of the word-identifier pattern `([[:alpha:]]|_)[[:word:]]*'*`
(token.rs line 75). -/
def matchIdentA : List Char → Option Nat
  | [] => none
  | c :: cs =>
    if c.isAlpha || c == '_' then
      let w := countWhile isWordChar cs
      let q := countWhile isQuoteMark (cs.drop w)
      some (1 + w + q)
    else none

/-- Matcher of the symbolic-identifier pattern (token.rs line 76). -/
def matchIdentB (s : List Char) : Option Nat :=
  if countWhile isOtherChar s = 0 then none else some (countWhile isOtherChar s)

/-- Matcher of the string-literal body after the opening quote: consumes
content characters and escapes (`\` + one of `"\\bnfrt/`, or `\u` + four
hex digits) up to and including the closing quote, returning the number of
characters consumed (closing quote included); `none` when the input ends
or an illegal character appears before the literal closes. -/
def matchStringBody : List Char → Option Nat
  | [] => none
  | c :: r =>
    if c == '"' then some 1
    else if c == '\\' then
      match r with
      | [] => none
      | c2 :: r2 =>
        if isEscChar c2 then (matchStringBody r2).map (· + 2)
        else if c2 == 'u' then
          match r2 with
          | h1 :: h2 :: h3 :: h4 :: r3 =>
            if isHexDigit h1 && isHexDigit h2 && isHexDigit h3 && isHexDigit h4 then
              (matchStringBody r3).map (· + 6)
            else none
          | _ => none
        else none
    else if isStrContent c then (matchStringBody r).map (· + 1) else none

/-- Matcher of the string-literal pattern
`"([^"\\\x00-\x1F]|\\(["\\bnfrt/]|u[a-fA-F0-9]{4}))*"` (token.rs line 79).
Escape sequences and the surrounding quotes are part of the match; the
content classes exclude the unescaped quote, so the match closes at the
first unescaped quote. -/
def matchString : List Char → Option Nat
  | [] => none
  | c :: r => if c == '"' then (matchStringBody r).map (· + 1) else none

/-- Length the optional fractional group `(\.[[:digit:]]+)?` consumes at
the suffix following the integer digits: `1 + digits` when a dot followed
by at least one digit is present, otherwise 0. -/
def fracLen : List Char → Nat
  | [] => 0
  | c :: r =>
    if c == '.' then
      let fd := countWhile Char.isDigit r
      if fd = 0 then 0 else 1 + fd
    else 0

/-- Length the optional exponent group `([eE][-+]?[[:digit:]]+)?` consumes
at the suffix following the fraction: marker, optional sign and at least
one digit when all are present, otherwise 0. -/
def expLen : List Char → Nat
  | [] => 0
  | c :: r =>
    if c == 'e' || c == 'E' then
      match r with
      | [] => 0
      | c2 :: r2 =>
        if c2 == '+' || c2 == '-' then
          let ed := countWhile Char.isDigit r2
          if ed = 0 then 0 else 2 + ed
        else
          let ed := countWhile Char.isDigit r
          if ed = 0 then 0 else 1 + ed
    else 0

/-- Matcher of the number pattern
`[[:digit:]]+(\.[[:digit:]]+)?([eE][-+]?[[:digit:]]+)?` (token.rs
line 82).  Each optional group is taken only when it matches completely
(a trailing `.` or exponent marker without digits is left unconsumed,
which is how `4.a` splits into the number `4`, the symbolic identifier
`.` and the identifier `a` — the edge case token.rs lines 65-66 note). -/
def matchNum (s : List Char) : Option Nat :=
  if countWhile Char.isDigit s = 0 then none
  else
    some (countWhile Char.isDigit s +
      fracLen (s.drop (countWhile Char.isDigit s)) +
      expLen ((s.drop (countWhile Char.isDigit s)).drop
        (fracLen (s.drop (countWhile Char.isDigit s)))))

/-- Matcher of an exact-text `#[token("...")]` rule: succeeds exactly when
`lit` is a prefix of the input, with the literal's length. -/
def litMatch : List Char → List Char → Bool
  | [], _ => true
  | _ :: _, [] => false
  | l :: ls, s :: ss => l == s && litMatch ls ss

/-- Match length of an exact-text token rule. -/
def matchLit (lit : String) (s : List Char) : Option Nat :=
  if litMatch lit.data s then some lit.data.length else none

/-- Numeric value of a list of ASCII digits, most significant first. -/
def digitsVal : List Char → Nat → Nat
  | [], acc => acc
  | c :: r, acc => digitsVal r (acc * 10 + (c.toNat - 48))

/-- Model of Rust's `str::parse::<f64>` on the finite decimal forms, at
exact rational precision: optional sign, digits with an optional `.` and
fraction (at least one digit overall), optional `e`/`E` exponent with
optional sign and at least one digit, and nothing left over.  Rounding to
`f64`, overflow to infinity and the `inf`/`NaN` spellings are outside the
model; the lexer only ever hands this function lexemes of the number
pattern, which are digit-led finite decimals.  Returns `none` exactly when
Rust's parse returns `Err(ParseFloatError)` on such inputs. -/
def parseFloat (s : String) : Option ℚ :=
  let cs := s.data
  let sgn : ℚ := if cs.head? == some '-' then -1 else 1
  let cs1 : List Char :=
    match cs with
    | '+' :: r => r
    | '-' :: r => r
    | r => r
  let di := countWhile Char.isDigit cs1
  let intDigits := cs1.take di
  let cs2 := cs1.drop di
  let hasDot : Bool := cs2.head? == some '.'
  let afterDot := if hasDot then cs2.drop 1 else cs2
  let fd := if hasDot then countWhile Char.isDigit afterDot else 0
  let fracDigits := afterDot.take fd
  let cs3 := afterDot.drop fd
  if di = 0 && fd = 0 then none
  else
    let mant : ℚ := (digitsVal (intDigits ++ fracDigits) 0 : ℚ) / (10 : ℚ) ^ fd
    match cs3 with
    | [] => some (sgn * mant)
    | e :: r =>
      if e == 'e' || e == 'E' then
        let negExp : Bool := r.head? == some '-'
        let r1 : List Char :=
          match r with
          | '+' :: r2 => r2
          | '-' :: r2 => r2
          | r2 => r2
        let ed := countWhile Char.isDigit r1
        if ed = 0 then none
        else if (r1.drop ed).isEmpty then
          let expVal : ℤ := if negExp then -(digitsVal (r1.take ed) 0 : ℤ)
            else (digitsVal (r1.take ed) 0 : ℤ)
          some (sgn * mant * (10 : ℚ) ^ expVal)
        else none
      else none

/-! Callbacks, translated from token.rs lines 25-62.  In the Rust code a
callback reads the matched slice, the current span and the `extras` field
(the running line counter) from the `Lexer`; here those come in as
arguments. -/

/-- Mirrors `newline_callback` (token.rs lines 25-28): `lex.extras += 1`
and the token is skipped. -/
def newline_callback (extras : Nat) : Nat := extras + 1

/-- Mirrors `loc_callback` (token.rs lines 41-47). -/
def loc_callback (extras : Nat) (span : Span) : Pos :=
  { line := extras, column := span.start + 1, range := span }

/-- Mirrors `string_callback` (token.rs lines 30-39): the matched slice
verbatim, paired with the position. -/
def string_callback (slice : String) (extras : Nat) (span : Span) : String × Pos :=
  (slice, { line := extras, column := span.start + 1, range := span })

/-- Mirrors `num_callback` (token.rs lines 49-62): parse the slice as a
float; on failure report the error obtained through the `From` impl, on
success pair the value with the position. -/
def num_callback (slice : String) (extras : Nat) (span : Span) :
    Except LexingError (ℚ × Pos) :=
  match parseFloat slice with
  | none => Except.error (LexingError.fromParseFloatError ())
  | some n =>
    Except.ok (n, { line := extras, column := span.start + 1, range := span })

/-! Rule table and the matching engine. -/

/-- Classification a winning rule applies to its match: the two skip rules,
the three open literal categories, or an exact-text keyword/punctuation
rule producing the given variant. -/
inductive Action where
  | newline : Action
  | whitespace : Action
  | identifier : Action
  | stringLit : Action
  | number : Action
  | keyword : (Pos → Token) → Action

/-- Rule of the table: matcher, priority, action. -/
def Rule : Type := (List Char → Option Nat) × Nat × Action

/-- Exact-text rule `#[token(lit, loc_callback)]` producing variant `mk`;
logos gives such a rule priority `2 * lit.length`. -/
def kwRule (p : String × (Pos → Token)) : Rule :=
  (matchLit p.1, 2 * p.1.length, Action.keyword p.2)

/-- Exact lexeme texts of the `#[token]` rules and the variants they
produce, in source order (token.rs lines 86-218).  `InfixR`, `Lambda` and
`Uses` each have two alias lexemes. -/
def kwTable : List (String × (Pos → Token)) :=
  [("(", Token.LParen), (")", Token.RParen),
   ("[", Token.LSquare), ("]", Token.RSquare),
   (",", Token.Comma), (";", Token.SemiColon),
   ("!", Token.Bang), ("++", Token.PlusPlus),
   ("---", Token.TripleDash), (":", Token.Colon),
   ("<=", Token.LeftArrowFat), ("==", Token.EqEq),
   ("=>", Token.RightArrowFat), ("|", Token.Pipe),
   ("abstype", Token.AbsType), ("data", Token.Data),
   ("dec", Token.Dec), ("display", Token.Display),
   ("else", Token.Else), ("edit", Token.Edit),
   ("exit", Token.Exit), ("if", Token.If),
   ("in", Token.In), ("infix", Token.Infix),
   ("infixr", Token.InfixR), ("infixrl", Token.InfixR),
   ("lambda", Token.Lambda), ("\\", Token.Lambda),
   ("let", Token.Let), ("letrec", Token.LetRec),
   ("private", Token.Private), ("save", Token.Save),
   ("then", Token.Then), ("type", Token.TypeKw),
   ("typevar", Token.TypeVar), ("use", Token.Uses),
   ("uses", Token.Uses), ("where", Token.Where),
   ("whererec", Token.WhereRec), ("write", Token.Write),
   ("end", Token.End), ("module", Token.Module),
   ("nonop", Token.NonOp), ("pubconst", Token.PubConst),
   ("pubfun", Token.PubFun), ("pubtype", Token.PubType)]

/-- Pattern rules of the table, in source order: the skipped newline and
horizontal whitespace, the two identifier regexes (both feeding
`Token.Identifier` through `string_callback`), the string regex and the
number regex, each with the priority logos computes from the pattern. -/
def coreRules : List Rule :=
  [(matchNl, 2, Action.newline),
   (matchWs, 2, Action.whitespace),
   (matchIdentA, 2, Action.identifier),
   (matchIdentB, 2, Action.identifier),
   (matchString, 4, Action.stringLit),
   (matchNum, 2, Action.number)]

/-- Full rule table. -/
def rules : List Rule := coreRules ++ kwTable.map kwRule

/-- Candidate preference: a longer match always wins; at equal length the
higher priority wins (spec section 4.2; there is no pair of rules of this
table that can match the same slice with equal priority). -/
def pickBetter : Option (Nat × Nat × Action) → Nat → Nat → Action →
    Option (Nat × Nat × Action)
  | none, len, prio, act => some (len, prio, act)
  | some (l, p, a), len, prio, act =>
    if l < len ∨ (l = len ∧ p < prio) then some (len, prio, act) else some (l, p, a)

/-- Fold step over the rule table. -/
def pickStep (s : List Char) (acc : Option (Nat × Nat × Action)) (r : Rule) :
    Option (Nat × Nat × Action) :=
  match r.1 s with
  | none => acc
  | some len => pickBetter acc len r.2.1 r.2.2

/-- Winning rule at the current offset: match length, priority and action
of the longest-then-highest-priority match, or `none` when no rule
matches. -/
def pickRule (s : List Char) : Option (Nat × Nat × Action) :=
  rules.foldl (pickStep s) none

/-- Number of characters one step of the driver consumes: the winning
match length, or one character of error recovery when no rule matches.
Every matcher of the table returns a length that is at least 1 and at most
the remaining input's length; the clamp only makes that totality
structural, it never changes the value. -/
def matchLen (rest : List Char) : Nat :=
  match pickRule rest with
  | none => 1
  | some (len, _, _) => min (max len 1) rest.length

/-- One step of the driver at the suffix `rest`: what is emitted (`none`
for the two skipped classes) and the updated line counter. -/
def stepEmit (rest : List Char) (offset extras : Nat) :
    Option (Except LexingError Token) × Nat :=
  match pickRule rest with
  | none => (some (Except.error LexingError.UnrecognisedCharacter), extras)
  | some (_, _, act) =>
    let len1 := matchLen rest
    let slice : String := ⟨rest.take len1⟩
    let span : Span := ⟨offset, offset + len1⟩
    match act with
    | .newline => (none, newline_callback extras)
    | .whitespace => (none, extras)
    | .identifier =>
      (some (Except.ok (Token.Identifier (string_callback slice extras span))), extras)
    | .stringLit =>
      (some (Except.ok (Token.StringLit (string_callback slice extras span))), extras)
    | .number => (some ((num_callback slice extras span).map Token.Num), extras)
    | .keyword mk => (some (Except.ok (mk (loc_callback extras span))), extras)

/-- Record of one driver step: the consumed span, the consumed characters,
and the emitted item if the step emitted one. -/
structure Step where
  span : Span
  text : List Char
  emit : Option (Except LexingError Token)
deriving DecidableEq, Repr

/-- Driving loop over the remaining input.  `fuel` only bounds the number
of steps so the recursion is structural; every step consumes at least one
character, so `fuel = rest.length` always suffices. -/
def go : Nat → List Char → Nat → Nat → List Step
  | 0, _, _, _ => []
  | _ + 1, [], _, _ => []
  | fuel + 1, c :: cs, offset, extras =>
    let rest := c :: cs
    let len1 := matchLen rest
    { span := ⟨offset, offset + len1⟩, text := rest.take len1,
      emit := (stepEmit rest offset extras).1 }
      :: go fuel (rest.drop len1) (offset + len1) (stepEmit rest offset extras).2

/-- Full trace of one lexing session over `input`, the line counter seeded
with `initialLine` (the second argument of `Token::lexer_with_extras`). -/
def lexTrace (input : String) (initialLine : Nat) : List Step :=
  go input.data.length input.data 0 initialLine

/-- Emitted item sequence of one session: what iterating the logos `Lexer`
yields, skip tokens already filtered out. -/
def lex (input : String) (initialLine : Nat) : List (Except LexingError Token) :=
  (lexTrace input initialLine).filterMap Step.emit

/-! Observation helpers used by the statements. -/

/-- Number of newline characters in a character list. -/
def countNl (l : List Char) : Nat := l.countP (· == '\n')

/-- Index of the last newline strictly before index `i`, 0 when there is
none: the "offset of the most recent newline" of the spec's column
invariant. -/
def lastNlAux : List Char → Nat → Nat → Nat
  | [], _, best => best
  | c :: r, idx, best => lastNlAux r (idx + 1) (if c == '\n' then idx else best)

/-- Offset of the most recent newline before position `i` of `l`. -/
def lastNewlineOffset (l : List Char) (i : Nat) : Nat := lastNlAux (l.take i) 0 0

/-- Contiguity of a span list: starting at `off`, each span begins where
the previous one stopped, is non-empty, and the last one stops at
`stp`. -/
def covers : Nat → Nat → List Span → Prop
  | off, stp, [] => off = stp
  | off, stp, sp :: rest => sp.start = off ∧ off < sp.stop ∧ covers sp.stop stp rest

/-- Ranges of the successfully emitted tokens of an item sequence, in
order. -/
def tokenSpans (items : List (Except LexingError Token)) : List Span :=
  items.filterMap fun it =>
    match it with
    | .ok t => (Token.posOf t).map Pos.range
    | .error _ => none

/-- Line numbers of the successfully emitted tokens, in order. -/
def linesOf (items : List (Except LexingError Token)) : List Nat :=
  items.filterMap fun it =>
    match it with
    | .ok t => (Token.posOf t).map Pos.line
    | .error _ => none

/-- Relation between a step of a trace and the session it belongs to
(`rest` the unconsumed suffix the sub-trace started at, `offset` its
offset, `extras` the line counter there): the step's span lies at or after
`offset`, its text is the slice of the input at its span, its span has the
winning match's width, and what it emits is exactly what `stepEmit`
produces at the step's own suffix, with the line counter advanced by the
newlines consumed before the step. -/
def StepFacts (rest : List Char) (offset extras : Nat) (st : Step) : Prop :=
  offset ≤ st.span.start ∧
  st.text = (rest.drop (st.span.start - offset)).take (st.span.stop - st.span.start) ∧
  st.span.stop = st.span.start + matchLen (rest.drop (st.span.start - offset)) ∧
  st.emit = (stepEmit (rest.drop (st.span.start - offset)) st.span.start
    (extras + countNl (rest.take (st.span.start - offset)))).1

/-! Facts about `countWhile` and `countNl`. -/

theorem countWhile_take (p : Char → Bool) :
    ∀ l : List Char, ∀ c ∈ l.take (countWhile p l), p c = true := by
  intro l
  induction l with
  | nil => simp [countWhile]
  | cons a as ih =>
    intro c hc
    by_cases h : p a
    · simp only [countWhile, h, if_true, List.take_succ_cons, List.mem_cons] at hc
      rcases hc with rfl | hc
      · exact h
      · exact ih c hc
    · simp [countWhile, h] at hc

theorem countNl_nil : countNl [] = 0 := rfl

theorem countNl_append (l₁ l₂ : List Char) :
    countNl (l₁ ++ l₂) = countNl l₁ + countNl l₂ :=
  List.countP_append _ _ _

theorem countNl_eq_zero {l : List Char} (h : ∀ c ∈ l, c ≠ '\n') :
    countNl l = 0 := by
  refine List.countP_eq_zero.mpr ?_
  intro a ha
  simpa using h a ha

/-! Small character-class facts. -/

theorem hws_ne_nl {c : Char} (h : isHWs c = true) : c ≠ '\n' := by
  intro hc
  rw [hc] at h
  exact absurd h (by decide)

theorem word_ne_nl {c : Char} (h : isWordChar c = true) : c ≠ '\n' := by
  intro hc
  rw [hc] at h
  exact absurd h (by decide)

theorem quote_ne_nl {c : Char} (h : isQuoteMark c = true) : c ≠ '\n' := by
  intro hc
  rw [hc] at h
  exact absurd h (by decide)

theorem other_ne_nl {c : Char} (h : isOtherChar c = true) : c ≠ '\n' := by
  intro hc
  rw [hc] at h
  exact absurd h (by decide)

theorem digit_ne_nl {c : Char} (h : c.isDigit = true) : c ≠ '\n' := by
  intro hc
  rw [hc] at h
  exact absurd h (by decide)

theorem alpha_us_ne_nl {c : Char} (h : (c.isAlpha || c == '_') = true) : c ≠ '\n' := by
  intro hc
  rw [hc] at h
  exact absurd h (by decide)

theorem esc_ne_nl {c : Char} (h : isEscChar c = true) : c ≠ '\n' := by
  intro hc
  rw [hc] at h
  exact absurd h (by decide)

theorem hex_ne_nl {c : Char} (h : isHexDigit c = true) : c ≠ '\n' := by
  intro hc
  rw [hc] at h
  exact absurd h (by decide)

theorem content_ne_nl {c : Char} (h : isStrContent c = true) : c ≠ '\n' := by
  intro hc
  rw [hc] at h
  exact absurd h (by decide)

theorem ee_ne_nl {c : Char} (h : (c == 'e' || c == 'E') = true) : c ≠ '\n' := by
  intro hc
  rw [hc] at h
  exact absurd h (by decide)

theorem sign_ne_nl {c : Char} (h : (c == '+' || c == '-') = true) : c ≠ '\n' := by
  intro hc
  rw [hc] at h
  exact absurd h (by decide)

/-! Per-matcher facts: every match is non-empty, and no matcher other than
the newline rule ever includes a newline character in its match. -/

theorem matchNl_spec {s : List Char} {n : Nat} (h : matchNl s = some n) :
    n = 1 ∧ s.take 1 = ['\n'] := by
  cases s with
  | nil => simp [matchNl] at h
  | cons c cs =>
    simp only [matchNl] at h
    split at h
    · rename_i hc
      refine ⟨(Option.some.inj h).symm, ?_⟩
      have hc' : c = '\n' := by simpa using hc
      simp [hc']
    · exact absurd h (by simp)

theorem matchWs_spec {s : List Char} {n : Nat} (h : matchWs s = some n) :
    1 ≤ n ∧ ∀ c ∈ s.take n, c ≠ '\n' := by
  unfold matchWs at h
  split at h
  · exact absurd h (by simp)
  · rename_i h0
    obtain rfl : countWhile isHWs s = n := Option.some.inj h
    exact ⟨Nat.one_le_iff_ne_zero.mpr h0,
      fun c hc => hws_ne_nl (countWhile_take isHWs s c hc)⟩

theorem matchIdentA_spec {s : List Char} {n : Nat} (h : matchIdentA s = some n) :
    1 ≤ n ∧ ∀ c ∈ s.take n, c ≠ '\n' := by
  cases s with
  | nil => simp [matchIdentA] at h
  | cons c cs =>
    simp only [matchIdentA] at h
    split at h
    · rename_i hc
      obtain rfl : 1 + countWhile isWordChar cs +
          countWhile isQuoteMark (cs.drop (countWhile isWordChar cs)) = n :=
        Option.some.inj h
      refine ⟨by omega, ?_⟩
      have htake : (c :: cs).take (1 + countWhile isWordChar cs +
          countWhile isQuoteMark (cs.drop (countWhile isWordChar cs))) =
          c :: cs.take (countWhile isWordChar cs +
            countWhile isQuoteMark (cs.drop (countWhile isWordChar cs))) := by
        rw [show 1 + countWhile isWordChar cs +
            countWhile isQuoteMark (cs.drop (countWhile isWordChar cs)) =
            (countWhile isWordChar cs +
              countWhile isQuoteMark (cs.drop (countWhile isWordChar cs))) + 1 by omega,
          List.take_succ_cons]
      rw [htake]
      intro x hx
      rcases List.mem_cons.mp hx with rfl | hx
      · exact alpha_us_ne_nl hc
      · rw [List.take_add] at hx
        rcases List.mem_append.mp hx with hx | hx
        · exact word_ne_nl (countWhile_take isWordChar cs x hx)
        · exact quote_ne_nl
            (countWhile_take isQuoteMark (cs.drop (countWhile isWordChar cs)) x hx)
    · exact absurd h (by simp)

theorem matchIdentB_spec {s : List Char} {n : Nat} (h : matchIdentB s = some n) :
    1 ≤ n ∧ ∀ c ∈ s.take n, c ≠ '\n' := by
  unfold matchIdentB at h
  split at h
  · exact absurd h (by simp)
  · rename_i h0
    obtain rfl : countWhile isOtherChar s = n := Option.some.inj h
    exact ⟨Nat.one_le_iff_ne_zero.mpr h0,
      fun c hc => other_ne_nl (countWhile_take isOtherChar s c hc)⟩

theorem msb_quote (r : List Char) : matchStringBody ('"' :: r) = some 1 := by
  conv_lhs => unfold matchStringBody
  simp

theorem msb_backslash_nil : matchStringBody ['\\'] = none := by
  conv_lhs => unfold matchStringBody
  simp

theorem msb_esc {c2 : Char} (r2 : List Char) (h : isEscChar c2 = true) :
    matchStringBody ('\\' :: c2 :: r2) = (matchStringBody r2).map (· + 2) := by
  conv_lhs => unfold matchStringBody
  simp [h]

theorem msb_u (h1 h2 h3 h4 : Char) (r3 : List Char) :
    matchStringBody ('\\' :: 'u' :: h1 :: h2 :: h3 :: h4 :: r3) =
      (if isHexDigit h1 && isHexDigit h2 && isHexDigit h3 && isHexDigit h4 then
        (matchStringBody r3).map (· + 6)
      else none) := by
  conv_lhs => unfold matchStringBody
  have hu : isEscChar 'u' = false := by decide
  simp [hu]

theorem msb_esc_bad {c2 : Char} (r2 : List Char) (h : isEscChar c2 = false)
    (hu : (c2 == 'u') = false) :
    matchStringBody ('\\' :: c2 :: r2) = none := by
  conv_lhs => unfold matchStringBody
  simp [h, hu]

theorem msb_u_short (r2 : List Char) (hshort : r2.length < 4) :
    matchStringBody ('\\' :: 'u' :: r2) = none := by
  conv_lhs => unfold matchStringBody
  have hu : isEscChar 'u' = false := by decide
  match r2, hshort with
  | [], _ => simp [hu]
  | [a], _ => simp [hu]
  | [a, b], _ => simp [hu]
  | [a, b, c], _ => simp [hu]

theorem msb_content {c : Char} (r : List Char) (hq : (c == '"') = false)
    (hb : (c == '\\') = false) :
    matchStringBody (c :: r) =
      (if isStrContent c then (matchStringBody r).map (· + 1) else none) := by
  conv_lhs => unfold matchStringBody
  simp [hq, hb]

theorem matchStringBody_spec :
    ∀ (N : Nat) (s : List Char), s.length ≤ N → ∀ m, matchStringBody s = some m →
      ∃ mid r', s = mid ++ '"' :: r' ∧ m = mid.length + 1 ∧ ∀ c ∈ mid, c ≠ '\n' := by
  intro N
  induction N with
  | zero =>
    intro s hs m h
    obtain rfl : s = [] := List.length_eq_zero.mp (Nat.le_zero.mp hs)
    exact Option.noConfusion h
  | succ N ih =>
    intro s hs m h
    cases s with
    | nil => exact Option.noConfusion h
    | cons c r =>
      by_cases hq : (c == '"') = true
      · obtain rfl : c = '"' := by simpa using hq
        rw [msb_quote] at h
        exact ⟨[], r, rfl, by simpa using (Option.some.inj h).symm, by simp⟩
      · by_cases hb : (c == '\\') = true
        · obtain rfl : c = '\\' := by simpa using hb
          cases r with
          | nil => rw [msb_backslash_nil] at h; exact Option.noConfusion h
          | cons c2 r2 =>
            by_cases hesc : isEscChar c2 = true
            · rw [msb_esc r2 hesc] at h
              rcases Option.map_eq_some'.mp h with ⟨m', hm', rfl⟩
              have hr2 : r2.length ≤ N := by
                have := hs
                simp only [List.length_cons] at this
                omega
              obtain ⟨mid, r', rfl, rfl, hmid⟩ := ih r2 hr2 m' hm'
              refine ⟨'\\' :: c2 :: mid, r', by simp,
                by simp only [List.length_cons]; try omega, ?_⟩
              intro x hx
              rcases List.mem_cons.mp hx with rfl | hx
              · decide
              rcases List.mem_cons.mp hx with rfl | hx
              · exact esc_ne_nl hesc
              · exact hmid x hx
            · by_cases hu : (c2 == 'u') = true
              · obtain rfl : c2 = 'u' := by simpa using hu
                match r2, hs with
                | [], _ => rw [msb_u_short [] (by simp)] at h; exact Option.noConfusion h
                | [a], _ =>
                  rw [msb_u_short [a] (by simp)] at h
                  exact Option.noConfusion h
                | [a, b], _ =>
                  rw [msb_u_short [a, b] (by simp)] at h
                  exact Option.noConfusion h
                | [a, b, c], _ =>
                  rw [msb_u_short [a, b, c] (by simp)] at h
                  exact Option.noConfusion h
                | h1 :: h2 :: h3 :: h4 :: r3, hs =>
                  rw [msb_u h1 h2 h3 h4 r3] at h
                  split at h
                  · rename_i hhex
                    rcases Option.map_eq_some'.mp h with ⟨m', hm', rfl⟩
                    have hr3 : r3.length ≤ N := by
                      simp only [List.length_cons] at hs
                      omega
                    obtain ⟨mid, r', rfl, rfl, hmid⟩ := ih r3 hr3 m' hm'
                    have hhex' := hhex
                    simp only [Bool.and_eq_true] at hhex'
                    refine ⟨'\\' :: 'u' :: h1 :: h2 :: h3 :: h4 :: mid, r',
                      by simp, by simp only [List.length_cons]; try omega, ?_⟩
                    intro x hx
                    rcases List.mem_cons.mp hx with rfl | hx
                    · decide
                    rcases List.mem_cons.mp hx with rfl | hx
                    · decide
                    rcases List.mem_cons.mp hx with rfl | hx
                    · exact hex_ne_nl hhex'.1.1.1
                    rcases List.mem_cons.mp hx with rfl | hx
                    · exact hex_ne_nl hhex'.1.1.2
                    rcases List.mem_cons.mp hx with rfl | hx
                    · exact hex_ne_nl hhex'.1.2
                    rcases List.mem_cons.mp hx with rfl | hx
                    · exact hex_ne_nl hhex'.2
                    · exact hmid x hx
                  · exact Option.noConfusion h
              · rw [msb_esc_bad r2 (by simpa using hesc) (by simpa using hu)] at h
                exact Option.noConfusion h
        · rw [msb_content r (by simpa using hq) (by simpa using hb)] at h
          split at h
          · rename_i hcontent
            rcases Option.map_eq_some'.mp h with ⟨m', hm', rfl⟩
            have hr : r.length ≤ N := by
              have := hs
              simp only [List.length_cons] at this
              omega
            obtain ⟨mid, r', rfl, rfl, hmid⟩ := ih r hr m' hm'
            refine ⟨c :: mid, r', by simp, by simp only [List.length_cons]; try omega, ?_⟩
            intro x hx
            rcases List.mem_cons.mp hx with rfl | hx
            · exact content_ne_nl hcontent
            · exact hmid x hx
          · exact Option.noConfusion h
theorem matchString_spec {s : List Char} {len : Nat} (h : matchString s = some len) :
    2 ≤ len ∧ len ≤ s.length ∧ (∃ mid, s.take len = '"' :: mid ++ ['"']) ∧
      ∀ c ∈ s.take len, c ≠ '\n' := by
  cases s with
  | nil => simp [matchString] at h
  | cons c r =>
    simp only [matchString] at h
    split at h
    · rename_i hc
      have hc' : c = '"' := by simpa using hc
      subst hc'
      rcases Option.map_eq_some'.mp h with ⟨m, hm, rfl⟩
      obtain ⟨mid, r', rfl, rfl, hmid⟩ := matchStringBody_spec _ _ le_rfl m hm
      have hlen : mid.length + 1 + 1 ≤ ('"' :: (mid ++ '"' :: r')).length := by
        simp only [List.length_cons, List.length_append]
        omega
      have htake : ('"' :: (mid ++ '"' :: r')).take (mid.length + 1 + 1) =
          '"' :: mid ++ ['"'] := by
        rw [List.take_succ_cons]
        have : mid.length + 1 = mid.length + 1 := rfl
        rw [List.take_add, List.take_left, List.drop_left]
        simp
      refine ⟨by omega, hlen, ⟨mid, htake⟩, ?_⟩
      rw [htake]
      intro x hx
      rcases List.mem_cons.mp hx with rfl | hx
      · decide
      rcases List.mem_append.mp hx with hx | hx
      · exact hmid x hx
      · rcases List.mem_singleton.mp hx with rfl
        decide
    · exact absurd h (by simp)

theorem frac_no_nl : ∀ (l : List Char), ∀ c ∈ l.take (fracLen l), c ≠ '\n' := by
  intro l
  cases l with
  | nil => simp [fracLen]
  | cons a r =>
    by_cases ha : (a == '.') = true
    · have ha' : a = '.' := by simpa using ha
      subst ha'
      by_cases hfd : countWhile Char.isDigit r = 0
      · simp [fracLen, hfd]
      · have hval : fracLen ('.' :: r) = 1 + countWhile Char.isDigit r := by
          simp [fracLen, hfd]
        rw [hval, show 1 + countWhile Char.isDigit r =
            countWhile Char.isDigit r + 1 by omega, List.take_succ_cons]
        intro c hc
        rcases List.mem_cons.mp hc with rfl | hc
        · decide
        · exact digit_ne_nl (countWhile_take Char.isDigit r c hc)
    · simp [fracLen, ha]

theorem exp_no_nl : ∀ (l : List Char), ∀ c ∈ l.take (expLen l), c ≠ '\n' := by
  intro l
  cases l with
  | nil => simp [expLen]
  | cons a r =>
    by_cases ha : (a == 'e' || a == 'E') = true
    · cases r with
      | nil => simp [expLen, ha]
      | cons c2 r2 =>
        by_cases hsgn : (c2 == '+' || c2 == '-') = true
        · by_cases hed : countWhile Char.isDigit r2 = 0
          · simp [expLen, ha, hsgn, hed]
          · have hval : expLen (a :: c2 :: r2) = 2 + countWhile Char.isDigit r2 := by
              simp [expLen, ha, hsgn, hed]
            rw [hval, show 2 + countWhile Char.isDigit r2 =
                (countWhile Char.isDigit r2 + 1) + 1 by omega,
              List.take_succ_cons, List.take_succ_cons]
            intro c hc
            rcases List.mem_cons.mp hc with rfl | hc
            · exact ee_ne_nl ha
            rcases List.mem_cons.mp hc with rfl | hc
            · exact sign_ne_nl hsgn
            · exact digit_ne_nl (countWhile_take Char.isDigit r2 c hc)
        · by_cases hed : countWhile Char.isDigit (c2 :: r2) = 0
          · simp [expLen, ha, hsgn, hed]
          · have hval : expLen (a :: c2 :: r2) =
                1 + countWhile Char.isDigit (c2 :: r2) := by
              simp [expLen, ha, hsgn, hed]
            rw [hval, show 1 + countWhile Char.isDigit (c2 :: r2) =
                countWhile Char.isDigit (c2 :: r2) + 1 by omega, List.take_succ_cons]
            intro c hc
            rcases List.mem_cons.mp hc with rfl | hc
            · exact ee_ne_nl ha
            · exact digit_ne_nl (countWhile_take Char.isDigit (c2 :: r2) c hc)
    · simp [expLen, ha]

theorem matchNum_spec {s : List Char} {n : Nat} (h : matchNum s = some n) :
    1 ≤ n ∧ ∀ c ∈ s.take n, c ≠ '\n' := by
  unfold matchNum at h
  split at h
  · exact absurd h (by simp)
  · rename_i h0
    obtain rfl := (Option.some.inj h).symm
    refine ⟨by omega, ?_⟩
    have hsplit : s.take (countWhile Char.isDigit s + fracLen (s.drop (countWhile Char.isDigit s)) +
        expLen ((s.drop (countWhile Char.isDigit s)).drop
          (fracLen (s.drop (countWhile Char.isDigit s))))) =
        s.take (countWhile Char.isDigit s) ++
          (s.drop (countWhile Char.isDigit s)).take
            (fracLen (s.drop (countWhile Char.isDigit s))) ++
          ((s.drop (countWhile Char.isDigit s)).drop
              (fracLen (s.drop (countWhile Char.isDigit s)))).take
            (expLen ((s.drop (countWhile Char.isDigit s)).drop
              (fracLen (s.drop (countWhile Char.isDigit s))))) := by
      rw [List.take_add, List.take_add]
      congr 1
      rw [List.drop_drop]
    rw [hsplit]
    intro c hc
    rcases List.mem_append.mp hc with hc | hc
    · rcases List.mem_append.mp hc with hc | hc
      · exact digit_ne_nl (countWhile_take Char.isDigit s c hc)
      · exact frac_no_nl _ c hc
    · exact exp_no_nl _ c hc

theorem litMatch_prefix : ∀ (l s : List Char), litMatch l s = true → s.take l.length = l := by
  intro l
  induction l with
  | nil => intro s _; simp
  | cons a as ih =>
    intro s h
    cases s with
    | nil => simp [litMatch] at h
    | cons b bs =>
      simp only [litMatch, Bool.and_eq_true] at h
      obtain rfl : a = b := by simpa using h.1
      simp only [List.length_cons, List.take_succ_cons]
      rw [ih bs h.2]

theorem matchLit_spec {lit : String} {s : List Char} {n : Nat}
    (h : matchLit lit s = some n) :
    n = lit.data.length ∧ s.take n = lit.data := by
  unfold matchLit at h
  split at h
  · rename_i hm
    obtain rfl := (Option.some.inj h).symm
    exact ⟨rfl, litMatch_prefix _ _ hm⟩
  · exact absurd h (by simp)

/-! Facts about the rule selection. -/

theorem pickBetter_isSome (acc : Option (Nat × Nat × Action)) (len prio : Nat)
    (act : Action) : (pickBetter acc len prio act).isSome = true := by
  cases acc with
  | none => rfl
  | some t =>
    obtain ⟨l, p, a⟩ := t
    show (if l < len ∨ (l = len ∧ p < prio) then some (len, prio, act)
      else some (l, p, a)).isSome = true
    split <;> rfl

theorem pickBetter_sound {Q : Nat × Nat × Action → Prop}
    {acc : Option (Nat × Nat × Action)} {len prio : Nat} {act : Action}
    (hacc : ∀ b, acc = some b → Q b) (hnew : Q (len, prio, act)) :
    ∀ b, pickBetter acc len prio act = some b → Q b := by
  intro b hb
  cases acc with
  | none =>
    have hb2 : some (len, prio, act) = some b := hb
    exact (Option.some.inj hb2) ▸ hnew
  | some t =>
    obtain ⟨l, p, a⟩ := t
    have hb2 : (if l < len ∨ (l = len ∧ p < prio) then some (len, prio, act)
        else some (l, p, a)) = some b := hb
    split at hb2
    · exact (Option.some.inj hb2) ▸ hnew
    · exact hacc _ hb2

theorem pick_fold_sound (s : List Char) (Q : Nat × Nat × Action → Prop) :
    ∀ (rs : List Rule) (acc : Option (Nat × Nat × Action)),
      (∀ b, acc = some b → Q b) →
      (∀ r ∈ rs, ∀ len, r.1 s = some len → Q (len, r.2.1, r.2.2)) →
      ∀ b, rs.foldl (pickStep s) acc = some b → Q b := by
  intro rs
  induction rs with
  | nil =>
    intro acc hacc _ b hb
    rw [List.foldl_nil] at hb
    exact hacc b hb
  | cons r rest ih =>
    intro acc hacc hrules b hb
    rw [List.foldl_cons] at hb
    refine ih (pickStep s acc r) ?_
      (fun r' hr' => hrules r' (List.mem_cons_of_mem _ hr')) b hb
    intro b' hb'
    unfold pickStep at hb'
    revert hb'
    cases hm : r.1 s with
    | none => intro hb'; exact hacc _ hb'
    | some len =>
      intro hb'
      exact pickBetter_sound hacc (hrules r (List.mem_cons_self _ _) len hm) b' hb'

theorem pickRule_sound {s : List Char} (Q : Nat × Nat × Action → Prop)
    (hrules : ∀ r ∈ rules, ∀ len, r.1 s = some len → Q (len, r.2.1, r.2.2)) :
    ∀ b, pickRule s = some b → Q b :=
  pick_fold_sound s Q rules none (fun _ h => Option.noConfusion h) hrules

theorem pick_fold_none (s : List Char) :
    ∀ (rs : List Rule) (acc : Option (Nat × Nat × Action)),
      rs.foldl (pickStep s) acc = none →
      acc = none ∧ ∀ r ∈ rs, r.1 s = none := by
  intro rs
  induction rs with
  | nil =>
    intro acc h
    rw [List.foldl_nil] at h
    exact ⟨h, by simp⟩
  | cons r rest ih =>
    intro acc h
    rw [List.foldl_cons] at h
    obtain ⟨hstep, hrest⟩ := ih (pickStep s acc r) h
    unfold pickStep at hstep
    revert hstep
    cases hm : r.1 s with
    | none =>
      intro hstep
      refine ⟨hstep, fun r' hr' => ?_⟩
      rcases List.mem_cons.mp hr' with rfl | h'
      · exact hm
      · exact hrest r' h'
    | some len =>
      intro hstep
      have hstep2 : pickBetter acc len r.2.1 r.2.2 = none := hstep
      have hsome := pickBetter_isSome acc len r.2.1 r.2.2
      rw [hstep2] at hsome
      exact Bool.noConfusion hsome

theorem pickRule_none_all {s : List Char} (h : pickRule s = none) :
    ∀ r ∈ rules, r.1 s = none :=
  (pick_fold_none s rules none h).2

/-! Facts about the keyword table: every lexeme text is non-empty and free
of newlines, and every produced variant carries exactly the position the
callback built, distinct from the open literal categories. -/

theorem kwTable_str (q : String × (Pos → Token)) (hq : q ∈ kwTable) :
    q.1.data ≠ [] ∧ ∀ c ∈ q.1.data, c ≠ '\n' := by
  fin_cases hq <;> exact ⟨by decide, by decide⟩

theorem kwTable_tok (q : String × (Pos → Token)) (hq : q ∈ kwTable) :
    ∀ p, Token.posOf (q.2 p) = some p ∧
      (∀ t r, q.2 p ≠ Token.Identifier (t, r)) ∧
      (∀ t r, q.2 p ≠ Token.StringLit (t, r)) := by
  fin_cases hq <;>
    exact fun p => ⟨rfl, fun t r h => Token.noConfusion h, fun t r h => Token.noConfusion h⟩

/-- Combined facts about the winning rule: its match is non-empty; the
newline rule wins only on a leading newline; any other winner's match is
newline-free; a string win is a `matchString` match; a keyword win
produces a closed variant carrying exactly the given position. -/
theorem pickRule_facts {s : List Char} {len prio : Nat} {act : Action}
    (h : pickRule s = some (len, prio, act)) :
    1 ≤ len ∧
    (act = Action.newline → len = 1 ∧ s.take 1 = ['\n']) ∧
    (act ≠ Action.newline → ∀ c ∈ s.take len, c ≠ '\n') ∧
    (act = Action.stringLit → matchString s = some len) ∧
    (∀ mk, act = Action.keyword mk →
      ∀ p, Token.posOf (mk p) = some p ∧
        (∀ t r, mk p ≠ Token.Identifier (t, r)) ∧
        (∀ t r, mk p ≠ Token.StringLit (t, r))) := by
  refine pickRule_sound (fun b =>
    1 ≤ b.1 ∧
    (b.2.2 = Action.newline → b.1 = 1 ∧ s.take 1 = ['\n']) ∧
    (b.2.2 ≠ Action.newline → ∀ c ∈ s.take b.1, c ≠ '\n') ∧
    (b.2.2 = Action.stringLit → matchString s = some b.1) ∧
    (∀ mk, b.2.2 = Action.keyword mk →
      ∀ p, Token.posOf (mk p) = some p ∧
        (∀ t r, mk p ≠ Token.Identifier (t, r)) ∧
        (∀ t r, mk p ≠ Token.StringLit (t, r)))) ?_ _ h
  intro r hr len' hm
  rcases List.mem_append.mp hr with hr | hr
  · simp only [coreRules, List.mem_cons, List.not_mem_nil, or_false] at hr
    rcases hr with rfl | rfl | rfl | rfl | rfl | rfl
    · obtain ⟨h1, h2⟩ := matchNl_spec hm
      exact ⟨by omega, fun _ => ⟨h1, h2⟩, fun hne => absurd rfl hne,
        fun hc => Action.noConfusion hc, fun mk hk => Action.noConfusion hk⟩
    · obtain ⟨h1, h2⟩ := matchWs_spec hm
      exact ⟨h1, fun hc => Action.noConfusion hc, fun _ => h2,
        fun hc => Action.noConfusion hc, fun mk hk => Action.noConfusion hk⟩
    · obtain ⟨h1, h2⟩ := matchIdentA_spec hm
      exact ⟨h1, fun hc => Action.noConfusion hc, fun _ => h2,
        fun hc => Action.noConfusion hc, fun mk hk => Action.noConfusion hk⟩
    · obtain ⟨h1, h2⟩ := matchIdentB_spec hm
      exact ⟨h1, fun hc => Action.noConfusion hc, fun _ => h2,
        fun hc => Action.noConfusion hc, fun mk hk => Action.noConfusion hk⟩
    · obtain ⟨h1, _, _, h4⟩ := matchString_spec hm
      exact ⟨by omega, fun hc => Action.noConfusion hc, fun _ => h4,
        fun _ => hm, fun mk hk => Action.noConfusion hk⟩
    · obtain ⟨h1, h2⟩ := matchNum_spec hm
      exact ⟨h1, fun hc => Action.noConfusion hc, fun _ => h2,
        fun hc => Action.noConfusion hc, fun mk hk => Action.noConfusion hk⟩
  · rcases List.mem_map.mp hr with ⟨q, hq, rfl⟩
    obtain ⟨hlen', htake⟩ := matchLit_spec hm
    obtain ⟨hne, hnonl⟩ := kwTable_str q hq
    refine ⟨?_, fun hc => Action.noConfusion hc, fun _ => ?_,
      fun hc => Action.noConfusion hc, fun mk hk => ?_⟩
    · have h0 : q.1.data.length ≠ 0 := fun h0 => hne (List.length_eq_zero.mp h0)
      omega
    · intro c hc
      rw [htake] at hc
      exact hnonl c hc
    · injection hk with h2
      subst h2
      exact kwTable_tok q hq

/-! Facts about the consumed length and one driver step. -/

theorem matchLen_pos (c : Char) (cs : List Char) : 1 ≤ matchLen (c :: cs) := by
  unfold matchLen
  split
  · exact le_refl 1
  · refine le_min (le_max_right _ _) ?_
    simp only [List.length_cons]
    omega

theorem matchLen_le (c : Char) (cs : List Char) :
    matchLen (c :: cs) ≤ (c :: cs).length := by
  unfold matchLen
  split
  · simp only [List.length_cons]
    omega
  · exact min_le_right _ _

theorem matchLen_eq {s : List Char} {len prio : Nat} {act : Action}
    (h : pickRule s = some (len, prio, act)) (h1 : 1 ≤ len) (h2 : len ≤ s.length) :
    matchLen s = len := by
  unfold matchLen
  rw [h]
  show min (max len 1) s.length = len
  rw [max_eq_left h1]
  exact min_eq_left h2

theorem matchLen_le_len {s : List Char} {len prio : Nat} {act : Action}
    (h : pickRule s = some (len, prio, act)) (h1 : 1 ≤ len) : matchLen s ≤ len := by
  unfold matchLen
  rw [h]
  show min (max len 1) s.length ≤ len
  rw [max_eq_left h1]
  exact min_le_left _ _

theorem slice_no_nl {s : List Char} {len : Nat} (h1 : matchLen s ≤ len)
    (hnonl : ∀ c ∈ s.take len, c ≠ '\n') : countNl (s.take (matchLen s)) = 0 := by
  apply countNl_eq_zero
  intro c hc
  have h2 := List.take_take (matchLen s) len s
  rw [min_eq_left h1] at h2
  rw [← h2] at hc
  exact hnonl c (List.take_subset _ _ hc)

theorem stepEmit_extras (rest : List Char) (hne : rest ≠ []) (offset extras : Nat) :
    (stepEmit rest offset extras).2 = extras + countNl (rest.take (matchLen rest)) := by
  obtain ⟨c, cs, rfl⟩ : ∃ c cs, rest = c :: cs := by
    cases rest with
    | nil => exact absurd rfl hne
    | cons c cs => exact ⟨c, cs, rfl⟩
  unfold stepEmit
  cases hpick : pickRule (c :: cs) with
  | none =>
    have hml : matchLen (c :: cs) = 1 := by unfold matchLen; rw [hpick]
    have hnl : matchNl (c :: cs) = none :=
      pickRule_none_all hpick (matchNl, 2, Action.newline) (by simp [rules, coreRules])
    have hc : (c == '\n') = false := by
      cases hcb : c == '\n'
      · rfl
      · exfalso
        simp [matchNl, hcb] at hnl
    have htake : (c :: cs).take (matchLen (c :: cs)) = [c] := by
      rw [hml]
      rfl
    rw [htake]
    have hcnt : countNl [c] = 0 := by simp [countNl, hc]
    rw [hcnt]
    show extras = extras + 0
    rfl
  | some t =>
    obtain ⟨len, prio, act⟩ := t
    obtain ⟨h1, hnlf, hnonl, _, _⟩ := pickRule_facts hpick
    cases act with
    | newline =>
      obtain ⟨rfl, htake1⟩ := hnlf rfl
      have hml : matchLen (c :: cs) = 1 :=
        matchLen_eq hpick (by omega) (by simp only [List.length_cons]; omega)
      rw [hml, htake1]
      have hcnt : countNl ['\n'] = 1 := by decide
      rw [hcnt]
      show newline_callback extras = extras + 1
      rfl
    | whitespace =>
      rw [slice_no_nl (matchLen_le_len hpick h1) (hnonl (fun hh => Action.noConfusion hh))]
      show extras = extras + 0
      rfl
    | identifier =>
      rw [slice_no_nl (matchLen_le_len hpick h1) (hnonl (fun hh => Action.noConfusion hh))]
      show extras = extras + 0
      rfl
    | stringLit =>
      rw [slice_no_nl (matchLen_le_len hpick h1) (hnonl (fun hh => Action.noConfusion hh))]
      show extras = extras + 0
      rfl
    | number =>
      rw [slice_no_nl (matchLen_le_len hpick h1) (hnonl (fun hh => Action.noConfusion hh))]
      show extras = extras + 0
      rfl
    | keyword mk =>
      rw [slice_no_nl (matchLen_le_len hpick h1) (hnonl (fun hh => Action.noConfusion hh))]
      show extras = extras + 0
      rfl

theorem stepEmit_none_err (rest : List Char) (offset extras : Nat)
    (h : pickRule rest = none) :
    (stepEmit rest offset extras).1 =
      some (Except.error LexingError.UnrecognisedCharacter) := by
  unfold stepEmit
  rw [h]

theorem except_map_ok (f : ℚ × Pos → Token) (x : ℚ × Pos) :
    Except.map f (Except.ok x : Except LexingError (ℚ × Pos)) = Except.ok (f x) := rfl

theorem except_map_error (f : ℚ × Pos → Token) (x : LexingError) :
    Except.map f (Except.error x : Except LexingError (ℚ × Pos)) = Except.error x := rfl

/-! Reduction of `stepEmit` under each possible winner. -/

theorem stepEmit_red_none {rest : List Char} (offset extras : Nat)
    (h : pickRule rest = none) :
    stepEmit rest offset extras =
      (some (Except.error LexingError.UnrecognisedCharacter), extras) := by
  unfold stepEmit
  rw [h]

theorem stepEmit_red_newline {rest : List Char} {len prio : Nat} (offset extras : Nat)
    (h : pickRule rest = some (len, prio, Action.newline)) :
    stepEmit rest offset extras = (none, newline_callback extras) := by
  unfold stepEmit
  rw [h]

theorem stepEmit_red_ws {rest : List Char} {len prio : Nat} (offset extras : Nat)
    (h : pickRule rest = some (len, prio, Action.whitespace)) :
    stepEmit rest offset extras = (none, extras) := by
  unfold stepEmit
  rw [h]

theorem stepEmit_red_ident {rest : List Char} {len prio : Nat} (offset extras : Nat)
    (h : pickRule rest = some (len, prio, Action.identifier)) :
    stepEmit rest offset extras =
      (some (Except.ok (Token.Identifier (⟨rest.take (matchLen rest)⟩,
        ⟨extras, offset + 1, ⟨offset, offset + matchLen rest⟩⟩))), extras) := by
  unfold stepEmit
  rw [h]
  rfl

theorem stepEmit_red_str {rest : List Char} {len prio : Nat} (offset extras : Nat)
    (h : pickRule rest = some (len, prio, Action.stringLit)) :
    stepEmit rest offset extras =
      (some (Except.ok (Token.StringLit (⟨rest.take (matchLen rest)⟩,
        ⟨extras, offset + 1, ⟨offset, offset + matchLen rest⟩⟩))), extras) := by
  unfold stepEmit
  rw [h]
  rfl

theorem stepEmit_red_num {rest : List Char} {len prio : Nat} (offset extras : Nat)
    (h : pickRule rest = some (len, prio, Action.number)) :
    stepEmit rest offset extras =
      (some ((num_callback ⟨rest.take (matchLen rest)⟩ extras
        ⟨offset, offset + matchLen rest⟩).map Token.Num), extras) := by
  unfold stepEmit
  rw [h]

theorem stepEmit_red_kw {rest : List Char} {len prio : Nat} {mk : Pos → Token}
    (offset extras : Nat)
    (h : pickRule rest = some (len, prio, Action.keyword mk)) :
    stepEmit rest offset extras =
      (some (Except.ok (mk ⟨extras, offset + 1, ⟨offset, offset + matchLen rest⟩⟩)),
        extras) := by
  unfold stepEmit
  rw [h]
  rfl

theorem num_callback_red_some {slice : String} {q : ℚ} (extras : Nat) (span : Span)
    (h : parseFloat slice = some q) :
    num_callback slice extras span =
      Except.ok (q, ⟨extras, span.start + 1, span⟩) := by
  unfold num_callback
  rw [h]

theorem num_callback_red_none {slice : String} (extras : Nat) (span : Span)
    (h : parseFloat slice = none) :
    num_callback slice extras span =
      Except.error (LexingError.InvalidNumber "Invalid number: \x7b\x7d") := by
  unfold num_callback
  rw [h]
  rfl

theorem stepEmit_err {rest : List Char} {offset extras : Nat} {e : LexingError}
    (h : (stepEmit rest offset extras).1 = some (Except.error e)) :
    (pickRule rest = none ∧ e = LexingError.UnrecognisedCharacter) ∨
    (∃ len prio, pickRule rest = some (len, prio, Action.number) ∧
      parseFloat ⟨rest.take (matchLen rest)⟩ = none ∧
      e = LexingError.InvalidNumber "Invalid number: \x7b\x7d") := by
  cases hpick : pickRule rest with
  | none =>
    rw [stepEmit_red_none offset extras hpick] at h
    left
    refine ⟨rfl, ?_⟩
    have h2 := Option.some.inj h
    injection h2 with h3
    exact h3.symm
  | some t =>
    obtain ⟨len, prio, act⟩ := t
    cases act with
    | newline =>
      rw [stepEmit_red_newline offset extras hpick] at h
      exact absurd h (by simp)
    | whitespace =>
      rw [stepEmit_red_ws offset extras hpick] at h
      exact absurd h (by simp)
    | identifier =>
      rw [stepEmit_red_ident offset extras hpick] at h
      exact absurd h (by simp)
    | stringLit =>
      rw [stepEmit_red_str offset extras hpick] at h
      exact absurd h (by simp)
    | keyword mk =>
      rw [stepEmit_red_kw offset extras hpick] at h
      exact absurd h (by simp)
    | number =>
      rw [stepEmit_red_num offset extras hpick] at h
      cases hparse : parseFloat ⟨rest.take (matchLen rest)⟩ with
      | some q =>
        rw [num_callback_red_some extras _ hparse, except_map_ok] at h
        exact absurd h (by simp)
      | none =>
        rw [num_callback_red_none extras _ hparse, except_map_error] at h
        right
        refine ⟨len, prio, rfl, rfl, ?_⟩
        have h2 := Option.some.inj h
        injection h2 with h3
        exact h3.symm

theorem stepEmit_ok {rest : List Char} {offset extras : Nat} {tok : Token}
    (h : (stepEmit rest offset extras).1 = some (Except.ok tok)) :
    Token.posOf tok = some ⟨extras, offset + 1, ⟨offset, offset + matchLen rest⟩⟩ ∧
    (∀ t p, tok = Token.Identifier (t, p) → t.data = rest.take (matchLen rest)) ∧
    (∀ t p, tok = Token.StringLit (t, p) →
      t.data = rest.take (matchLen rest) ∧
      ∃ mid, rest.take (matchLen rest) = '"' :: mid ++ ['"']) := by
  cases hpick : pickRule rest with
  | none =>
    rw [stepEmit_red_none offset extras hpick] at h
    exact absurd h (by simp)
  | some t =>
    obtain ⟨len, prio, act⟩ := t
    obtain ⟨h1, _, _, hstrf, hkwf⟩ := pickRule_facts hpick
    cases act with
    | newline =>
      rw [stepEmit_red_newline offset extras hpick] at h
      exact absurd h (by simp)
    | whitespace =>
      rw [stepEmit_red_ws offset extras hpick] at h
      exact absurd h (by simp)
    | identifier =>
      rw [stepEmit_red_ident offset extras hpick] at h
      have h2 := Option.some.inj h
      injection h2 with h3
      subst h3
      refine ⟨rfl, ?_, ?_⟩
      · intro t p hteq
        injection hteq with h5
        injection h5 with h6 h7
        subst h6
        rfl
      · intro t p hteq
        exact Token.noConfusion hteq
    | stringLit =>
      rw [stepEmit_red_str offset extras hpick] at h
      have h2 := Option.some.inj h
      injection h2 with h3
      subst h3
      have hms := hstrf rfl
      obtain ⟨hge2, hlenle, ⟨mid, hshape⟩, _⟩ := matchString_spec hms
      have hml : matchLen rest = len := matchLen_eq hpick (by omega) hlenle
      refine ⟨rfl, ?_, ?_⟩
      · intro t p hteq
        exact Token.noConfusion hteq
      · intro t p hteq
        injection hteq with h5
        injection h5 with h6 h7
        subst h6
        exact ⟨rfl, mid, by rw [hml]; exact hshape⟩
    | number =>
      rw [stepEmit_red_num offset extras hpick] at h
      cases hparse : parseFloat ⟨rest.take (matchLen rest)⟩ with
      | none =>
        rw [num_callback_red_none extras _ hparse, except_map_error] at h
        exact absurd h (by simp)
      | some q =>
        rw [num_callback_red_some extras _ hparse, except_map_ok] at h
        have h2 := Option.some.inj h
        injection h2 with h3
        subst h3
        refine ⟨rfl, ?_, ?_⟩
        · intro t p hteq
          exact Token.noConfusion hteq
        · intro t p hteq
          exact Token.noConfusion hteq
    | keyword mk =>
      rw [stepEmit_red_kw offset extras hpick] at h
      have h2 := Option.some.inj h
      injection h2 with h3
      subst h3
      obtain ⟨hpos, hni, hns⟩ :=
        hkwf mk rfl ⟨extras, offset + 1, ⟨offset, offset + matchLen rest⟩⟩
      exact ⟨hpos, fun t p hteq => absurd hteq (hni t p),
        fun t p hteq => absurd hteq (hns t p)⟩

/-- Master invariant of the driving loop: the spans of a trace tile the
consumed suffix contiguously, the consumed texts concatenate back to the
suffix, and every step satisfies `StepFacts`. -/
theorem go_spec :
    ∀ (fuel : Nat) (rest : List Char) (offset extras : Nat), rest.length ≤ fuel →
      covers offset (offset + rest.length) ((go fuel rest offset extras).map Step.span) ∧
      ((go fuel rest offset extras).map Step.text).flatten = rest ∧
      ∀ st ∈ go fuel rest offset extras, StepFacts rest offset extras st := by
  intro fuel
  induction fuel with
  | zero =>
    intro rest offset extras hlen
    obtain rfl : rest = [] := List.length_eq_zero.mp (Nat.le_zero.mp hlen)
    exact ⟨rfl, rfl, fun st hst => absurd hst (List.not_mem_nil st)⟩
  | succ fuel ih =>
    intro rest offset extras hlen
    cases rest with
    | nil => exact ⟨rfl, rfl, fun st hst => absurd hst (List.not_mem_nil st)⟩
    | cons c cs =>
      have hgo : go (fuel + 1) (c :: cs) offset extras =
          { span := ⟨offset, offset + matchLen (c :: cs)⟩,
            text := (c :: cs).take (matchLen (c :: cs)),
            emit := (stepEmit (c :: cs) offset extras).1 }
            :: go fuel ((c :: cs).drop (matchLen (c :: cs)))
              (offset + matchLen (c :: cs)) (stepEmit (c :: cs) offset extras).2 := rfl
      have h1 : 1 ≤ matchLen (c :: cs) := matchLen_pos c cs
      have h2 : matchLen (c :: cs) ≤ (c :: cs).length := matchLen_le c cs
      have hrest' : ((c :: cs).drop (matchLen (c :: cs))).length ≤ fuel := by
        rw [List.length_drop]
        simp only [List.length_cons] at hlen h2 ⊢
        omega
      obtain ⟨ihcov, ihjoin, ihsteps⟩ := ih ((c :: cs).drop (matchLen (c :: cs)))
        (offset + matchLen (c :: cs)) ((stepEmit (c :: cs) offset extras).2) hrest'
      refine ⟨?_, ?_, ?_⟩
      · rw [hgo, List.map_cons]
        refine ⟨rfl, ?_, ?_⟩
        · show offset < offset + matchLen (c :: cs)
          omega
        have hstp : offset + matchLen (c :: cs) + ((c :: cs).drop (matchLen (c :: cs))).length =
            offset + (c :: cs).length := by
          rw [List.length_drop]
          simp only [List.length_cons] at h2 ⊢
          omega
        rw [← hstp]
        exact ihcov
      · rw [hgo, List.map_cons, List.flatten_cons, ihjoin]
        exact List.take_append_drop _ _
      · intro st hst
        rw [hgo] at hst
        rcases List.mem_cons.mp hst with rfl | hst
        · refine ⟨le_refl offset, ?_, ?_, ?_⟩
          · show (c :: cs).take (matchLen (c :: cs)) =
              ((c :: cs).drop (offset - offset)).take
                (offset + matchLen (c :: cs) - offset)
            rw [Nat.sub_self, List.drop_zero, Nat.add_sub_cancel_left]
          · show offset + matchLen (c :: cs) =
              offset + matchLen ((c :: cs).drop (offset - offset))
            rw [Nat.sub_self, List.drop_zero]
          · show (stepEmit (c :: cs) offset extras).1 =
              (stepEmit ((c :: cs).drop (offset - offset)) offset
                (extras + countNl ((c :: cs).take (offset - offset)))).1
            rw [Nat.sub_self, List.drop_zero, List.take_zero, countNl_nil,
              Nat.add_zero]
        · obtain ⟨hos, htext, hstop, hemit⟩ := ihsteps st hst
          have hos2 : offset ≤ st.span.start := by omega
          have hdrop : ((c :: cs).drop (matchLen (c :: cs))).drop
              (st.span.start - (offset + matchLen (c :: cs))) =
              (c :: cs).drop (st.span.start - offset) := by
            rw [List.drop_drop]
            congr 1
            omega
          have htakeeq : (c :: cs).take (st.span.start - offset) =
              (c :: cs).take (matchLen (c :: cs)) ++
                ((c :: cs).drop (matchLen (c :: cs))).take
                  (st.span.start - (offset + matchLen (c :: cs))) := by
            rw [show st.span.start - offset = matchLen (c :: cs) +
              (st.span.start - (offset + matchLen (c :: cs))) by omega, List.take_add]
          refine ⟨hos2, ?_, ?_, ?_⟩
          · rw [htext, hdrop]
          · rw [hstop, hdrop]
          · rw [hemit, hdrop]
            have hext : (stepEmit (c :: cs) offset extras).2 +
                countNl (((c :: cs).drop (matchLen (c :: cs))).take
                  (st.span.start - (offset + matchLen (c :: cs)))) =
                extras + countNl ((c :: cs).take (st.span.start - offset)) := by
              rw [stepEmit_extras (c :: cs) (by simp) offset extras, htakeeq,
                countNl_append]
              omega
            rw [hext]

/-! Consequences of contiguity. -/

theorem covers_le_stp : ∀ {l : List Span} {off stp : Nat}, covers off stp l → off ≤ stp := by
  intro l
  induction l with
  | nil => intro off stp h; exact le_of_eq h
  | cons sp rest ih =>
    intro off stp h
    obtain ⟨hs, hlt, hrest⟩ := h
    have := ih hrest
    omega

theorem covers_mem : ∀ {l : List Span} {off stp : Nat}, covers off stp l →
    ∀ sp ∈ l, off ≤ sp.start ∧ sp.start < sp.stop ∧ sp.stop ≤ stp := by
  intro l
  induction l with
  | nil => intro off stp _ sp hsp; exact absurd hsp (List.not_mem_nil sp)
  | cons sp0 rest ih =>
    intro off stp h sp hsp
    obtain ⟨hs, hlt, hrest⟩ := h
    rcases List.mem_cons.mp hsp with rfl | hsp
    · have := covers_le_stp hrest
      omega
    · have := ih hrest sp hsp
      omega

theorem covers_pairwise : ∀ {l : List Span} {off stp : Nat}, covers off stp l →
    List.Pairwise (fun a b => a.stop ≤ b.start) l := by
  intro l
  induction l with
  | nil => intro off stp _; exact List.Pairwise.nil
  | cons sp rest ih =>
    intro off stp h
    obtain ⟨hs, hlt, hrest⟩ := h
    exact List.Pairwise.cons (fun b hb => (covers_mem hrest b hb).1) (ih hrest)

/-! The emitted tokens' spans are a sublist of the trace's spans. -/

theorem tokenSpans_cons_error (e : LexingError) (l : List (Except LexingError Token)) :
    tokenSpans (Except.error e :: l) = tokenSpans l := by
  unfold tokenSpans
  exact List.filterMap_cons_none rfl

theorem tokenSpans_cons_ok_none (tok : Token) (l : List (Except LexingError Token))
    (h : Token.posOf tok = none) :
    tokenSpans (Except.ok tok :: l) = tokenSpans l := by
  unfold tokenSpans
  refine List.filterMap_cons_none ?_
  simp [h]

theorem tokenSpans_cons_ok_some (tok : Token) (p : Pos)
    (l : List (Except LexingError Token)) (h : Token.posOf tok = some p) :
    tokenSpans (Except.ok tok :: l) = p.range :: tokenSpans l := by
  unfold tokenSpans
  refine List.filterMap_cons_some ?_
  simp [h]

theorem tokenSpans_sublist (tr : List Step)
    (hfacts : ∀ st ∈ tr, ∀ tok, st.emit = some (Except.ok tok) →
      ∀ p, Token.posOf tok = some p → p.range = st.span) :
    (tokenSpans (tr.filterMap Step.emit)).Sublist (tr.map Step.span) := by
  induction tr with
  | nil => simp [tokenSpans]
  | cons st tr ih =>
    have ihh := ih (fun st' h' => hfacts st' (List.mem_cons_of_mem _ h'))
    cases hemit : st.emit with
    | none =>
      rw [List.filterMap_cons_none hemit, List.map_cons]
      exact ihh.cons _
    | some r =>
      rw [List.filterMap_cons_some hemit, List.map_cons]
      cases r with
      | error e =>
        rw [tokenSpans_cons_error]
        exact ihh.cons _
      | ok tok =>
        cases hpos : Token.posOf tok with
        | none =>
          rw [tokenSpans_cons_ok_none _ _ hpos]
          exact ihh.cons _
        | some p =>
          rw [tokenSpans_cons_ok_some _ _ _ hpos]
          have hrange : p.range = st.span :=
            hfacts st (List.mem_cons_self _ _) tok hemit p hpos
          rw [hrange]
          exact ihh.cons₂ _

/-! Top-level consequences for one session. -/

theorem lexTrace_spec (input : String) (initialLine : Nat) :
    covers 0 input.data.length ((lexTrace input initialLine).map Step.span) ∧
    ((lexTrace input initialLine).map Step.text).flatten = input.data ∧
    ∀ st ∈ lexTrace input initialLine, StepFacts input.data 0 initialLine st := by
  have h := go_spec input.data.length input.data 0 initialLine le_rfl
  rw [Nat.zero_add] at h
  exact h

theorem mem_lex_step {input : String} {initialLine : Nat}
    {r : Except LexingError Token} (h : r ∈ lex input initialLine) :
    ∃ st ∈ lexTrace input initialLine, st.emit = some r := by
  unfold lex at h
  rcases List.mem_filterMap.mp h with ⟨st, hst, hemit⟩
  exact ⟨st, hst, hemit⟩

/-- Central corollary for a successfully emitted token: its position is
determined by its step's span and the newlines before it, and its carried
text is the verbatim slice of the input at its range. -/
theorem lex_ok_facts {input : String} {initialLine : Nat} {tok : Token}
    (h : Except.ok tok ∈ lex input initialLine) :
    ∃ st ∈ lexTrace input initialLine,
      st.emit = some (Except.ok tok) ∧
      Token.posOf tok = some ⟨initialLine + countNl (input.data.take st.span.start),
        st.span.start + 1, st.span⟩ ∧
      (∀ t p, tok = Token.Identifier (t, p) → t.data = st.text) ∧
      (∀ t p, tok = Token.StringLit (t, p) →
        t.data = st.text ∧ ∃ mid, st.text = '"' :: mid ++ ['"']) ∧
      st.text = (input.data.drop st.span.start).take (st.span.stop - st.span.start) := by
  obtain ⟨st, hst, hemit⟩ := mem_lex_step h
  obtain ⟨hos, htext, hstop, hemitEq⟩ := (lexTrace_spec input initialLine).2.2 st hst
  rw [Nat.sub_zero] at htext hstop hemitEq
  have hse : (stepEmit (input.data.drop st.span.start) st.span.start
      (initialLine + countNl (input.data.take st.span.start))).1 =
      some (Except.ok tok) := by
    rw [← hemitEq]
    exact hemit
  obtain ⟨hpos, hident, hstr⟩ := stepEmit_ok hse
  have hspan : (⟨st.span.start, st.span.start +
      matchLen (input.data.drop st.span.start)⟩ : Span) = st.span := by
    rw [← hstop]
  have htext2 : st.text =
      (input.data.drop st.span.start).take (matchLen (input.data.drop st.span.start)) := by
    rw [htext, hstop, Nat.add_sub_cancel_left]
  refine ⟨st, hst, hemit, ?_, ?_, ?_, htext⟩
  · rw [hpos, hspan]
  · intro t p hteq
    rw [htext2]
    exact hident t p hteq
  · intro t p hteq
    obtain ⟨hdata, mid, hshape⟩ := hstr t p hteq
    rw [htext2]
    exact ⟨hdata, mid, hshape⟩

/-! Sanity check: the model reproduces the repository's own unit test
(`should_lex_word_identifier`, token.rs lines 228-247). -/

theorem lex_repo_word_identifier_test :
    lex "_lift0'" 1 = [Except.ok (Token.Identifier ("_lift0'", ⟨1, 1, ⟨0, 7⟩⟩))] := by
  decide

/-! Claim theorems. -/

/-- Claim C1: for every emitted token (identifier, string, number,
punctuation, keyword), the Position's column field equals the token's
starting offset from the start of input plus 1 (column = range.start + 1),
regardless of how many newlines precede the token. -/
theorem C1_column_is_start_plus_one :
    ∀ (input : String) (initialLine : Nat) (tok : Token) (p : Pos),
      Except.ok tok ∈ lex input initialLine → Token.posOf tok = some p →
      p.column = p.range.start + 1 := by
  intro input initialLine tok p hmem hpos
  obtain ⟨st, hst, _, hposOf, _, _, _⟩ := lex_ok_facts hmem
  rw [hpos] at hposOf
  obtain rfl := Option.some.inj hposOf
  rfl

/-- Witness for C1 at the concrete session `lex "a" 1`. -/
theorem C1_column_is_start_plus_one_witness :
    Except.ok (Token.Identifier ("a", ⟨1, 1, ⟨0, 1⟩⟩)) ∈ lex "a" 1 ∧
    (⟨1, 1, ⟨0, 1⟩⟩ : Pos).column = (⟨1, 1, ⟨0, 1⟩⟩ : Pos).range.start + 1 :=
  ⟨by decide, C1_column_is_start_plus_one "a" 1
    (Token.Identifier ("a", ⟨1, 1, ⟨0, 1⟩⟩)) ⟨1, 1, ⟨0, 1⟩⟩ (by decide) rfl⟩

/-- Claim C2, counterexample: in `lex "a\nb" 1` the token `b` starts at
offset 2, the most recent newline sits at offset 1, and the emitted column
is 3, not 2 - 1 + 1 = 2 — the column is not relative to the current
line. -/
theorem C2_column_counterexample :
    Except.ok (Token.Identifier ("b", ⟨2, 3, ⟨2, 3⟩⟩)) ∈ lex "a\nb" 1 ∧
    lastNewlineOffset ("a\nb" : String).data 2 = 1 ∧
    (⟨2, 3, ⟨2, 3⟩⟩ : Pos).column ≠
      (⟨2, 3, ⟨2, 3⟩⟩ : Pos).range.start -
        lastNewlineOffset ("a\nb" : String).data
          (⟨2, 3, ⟨2, 3⟩⟩ : Pos).range.start + 1 :=
  ⟨by decide, by decide, by decide⟩

/-- Claim C2 as amended: the column field is the absolute start offset
plus one, independent of the offset of the most recent newline (it is
newline-relative only while no newline precedes the token). -/
theorem C2_column_absolute_amended :
    ∀ (input : String) (initialLine : Nat) (tok : Token) (p : Pos),
      Except.ok tok ∈ lex input initialLine → Token.posOf tok = some p →
      p.column = p.range.start + 1 := by
  intro input initialLine tok p hmem hpos
  obtain ⟨st, hst, _, hposOf, _, _, _⟩ := lex_ok_facts hmem
  rw [hpos] at hposOf
  obtain rfl := Option.some.inj hposOf
  rfl

/-- Witness for the amended C2 at the concrete session `lex "a\nb" 1`. -/
theorem C2_column_absolute_amended_witness :
    Except.ok (Token.Identifier ("b", ⟨2, 3, ⟨2, 3⟩⟩)) ∈ lex "a\nb" 1 ∧
    (⟨2, 3, ⟨2, 3⟩⟩ : Pos).column = (⟨2, 3, ⟨2, 3⟩⟩ : Pos).range.start + 1 :=
  ⟨by decide, C2_column_absolute_amended "a\nb" 1
    (Token.Identifier ("b", ⟨2, 3, ⟨2, 3⟩⟩)) ⟨2, 3, ⟨2, 3⟩⟩ (by decide) rfl⟩

/-- Claim C3: in a session with initial line number 1, every emitted
token's line equals 1 plus the number of newline characters consumed
before the token's start (nothing but a consumed newline changes the
counter), and the input `"a\nb\nc"` yields identifiers on lines 1, 2, 3. -/
theorem C3_line_counter :
    (∀ (input : String) (tok : Token) (p : Pos),
      Except.ok tok ∈ lex input 1 → Token.posOf tok = some p →
      p.line = 1 + countNl (input.data.take p.range.start)) ∧
    linesOf (lex "a\nb\nc" 1) = [1, 2, 3] := by
  constructor
  · intro input tok p hmem hpos
    obtain ⟨st, hst, _, hposOf, _, _, _⟩ := lex_ok_facts hmem
    rw [hpos] at hposOf
    obtain rfl := Option.some.inj hposOf
    rfl
  · decide

/-- Witness for C3 at the token `b` of the concrete session
`lex "a\nb\nc" 1`. -/
theorem C3_line_counter_witness :
    Except.ok (Token.Identifier ("b", ⟨2, 3, ⟨2, 3⟩⟩)) ∈ lex "a\nb\nc" 1 ∧
    (⟨2, 3, ⟨2, 3⟩⟩ : Pos).line =
      1 + countNl (("a\nb\nc" : String).data.take
        (⟨2, 3, ⟨2, 3⟩⟩ : Pos).range.start) :=
  ⟨by decide, C3_line_counter.1 "a\nb\nc"
    (Token.Identifier ("b", ⟨2, 3, ⟨2, 3⟩⟩)) ⟨2, 3, ⟨2, 3⟩⟩ (by decide) rfl⟩

/-- Claim C4, counterexample: lexing `"+++"` yields exactly one token, not
the claimed two (`PlusPlus` then `Identifier "+"`). -/
theorem C4_plusplus_counterexample :
    (lex "+++" 1).length = 1 ∧
    lex "+++" 1 ≠ [Except.ok (Token.PlusPlus ⟨1, 1, ⟨0, 2⟩⟩),
      Except.ok (Token.Identifier ("+", ⟨1, 3, ⟨2, 3⟩⟩))] :=
  ⟨by decide, by decide⟩

/-- Claim C4 as amended: lexing `"+++"` yields exactly one token, the
symbolic identifier `"+++"` covering all three bytes — the
symbolic-identifier rule's longer match (3) beats the reserved `"++"`
rule's shorter match (2); the reserved rule's higher priority decides only
between equal-length matches. -/
theorem C4_plusplus_amended :
    lex "+++" 1 = [Except.ok (Token.Identifier ("+++", ⟨1, 1, ⟨0, 3⟩⟩))] := by
  decide

/-- Claim C5: a lexeme coinciding with a reserved word produces the
keyword token, not a generic identifier: `"if"` yields the `If` token and
`"infixrl"` yields the `InfixR` token (each as the whole output, so never
an `Identifier`). -/
theorem C5_reserved_word_precedence :
    lex "if" 1 = [Except.ok (Token.If ⟨1, 1, ⟨0, 2⟩⟩)] ∧
    lex "infixrl" 1 = [Except.ok (Token.InfixR ⟨1, 1, ⟨0, 7⟩⟩)] :=
  ⟨by decide, by decide⟩

/-- Claim C6: alias lexemes classify to the same variant: `"\\"` and
`"lambda"` both yield `Lambda`, `"use"` and `"uses"` both yield `Uses`,
and `"infixr"` and `"infixrl"` both yield `InfixR`. -/
theorem C6_alias_equivalence :
    lex "\\" 1 = [Except.ok (Token.Lambda ⟨1, 1, ⟨0, 1⟩⟩)] ∧
    lex "lambda" 1 = [Except.ok (Token.Lambda ⟨1, 1, ⟨0, 6⟩⟩)] ∧
    lex "use" 1 = [Except.ok (Token.Uses ⟨1, 1, ⟨0, 3⟩⟩)] ∧
    lex "uses" 1 = [Except.ok (Token.Uses ⟨1, 1, ⟨0, 4⟩⟩)] ∧
    lex "infixr" 1 = [Except.ok (Token.InfixR ⟨1, 1, ⟨0, 6⟩⟩)] ∧
    lex "infixrl" 1 = [Except.ok (Token.InfixR ⟨1, 1, ⟨0, 7⟩⟩)] :=
  ⟨by decide, by decide, by decide, by decide, by decide, by decide⟩

/-- Claim C7: an `Err` item arises exactly from the two stated causes — a
lexeme matched by the number rule whose float parse fails (then the error
is `InvalidNumber`), or no rule matching at the current offset (then the
error is `UnrecognisedCharacter`, and such an offset always produces the
`Err`) — and an `Err` does not terminate the sequence: lexing continues,
as in `lex "\"a" 1` where an error is followed by a token. -/
theorem C7_error_model :
    (∀ (input : String) (initialLine : Nat) (st : Step) (e : LexingError),
      st ∈ lexTrace input initialLine → st.emit = some (Except.error e) →
      (pickRule (input.data.drop st.span.start) = none ∧
        e = LexingError.UnrecognisedCharacter) ∨
      (∃ len prio, pickRule (input.data.drop st.span.start) =
          some (len, prio, Action.number) ∧
        parseFloat ⟨st.text⟩ = none ∧
        e = LexingError.InvalidNumber "Invalid number: \x7b\x7d")) ∧
    (∀ (input : String) (initialLine : Nat) (st : Step),
      st ∈ lexTrace input initialLine →
      pickRule (input.data.drop st.span.start) = none →
      st.emit = some (Except.error LexingError.UnrecognisedCharacter)) ∧
    lex "\"a" 1 = [Except.error LexingError.UnrecognisedCharacter,
      Except.ok (Token.Identifier ("a", ⟨1, 2, ⟨1, 2⟩⟩))] := by
  refine ⟨?_, ?_, by decide⟩
  · intro input initialLine st e hst hemit
    obtain ⟨hos, htext, hstop, hemitEq⟩ := (lexTrace_spec input initialLine).2.2 st hst
    rw [Nat.sub_zero] at htext hstop hemitEq
    have hse : (stepEmit (input.data.drop st.span.start) st.span.start
        (initialLine + countNl (input.data.take st.span.start))).1 =
        some (Except.error e) := by
      rw [← hemitEq]
      exact hemit
    rcases stepEmit_err hse with ⟨hnone, he⟩ | ⟨len, prio, hpick, hparse, he⟩
    · exact Or.inl ⟨hnone, he⟩
    · refine Or.inr ⟨len, prio, hpick, ?_, he⟩
      have htext2 : st.text = (input.data.drop st.span.start).take
          (matchLen (input.data.drop st.span.start)) := by
        rw [htext, hstop, Nat.add_sub_cancel_left]
      rw [htext2]
      exact hparse
  · intro input initialLine st hst hnone
    obtain ⟨_, _, _, hemitEq⟩ := (lexTrace_spec input initialLine).2.2 st hst
    rw [Nat.sub_zero] at hemitEq
    rw [hemitEq]
    exact stepEmit_none_err _ _ _ hnone

/-- Witness for C7 at the error step of the concrete session
`lex "\"a" 1` (an unterminated string literal: no rule matches at the
quote). -/
theorem C7_error_model_witness :
    (⟨⟨0, 1⟩, ['"'], some (Except.error LexingError.UnrecognisedCharacter)⟩ : Step) ∈
      lexTrace "\"a" 1 ∧
    ((pickRule (("\"a" : String).data.drop 0) = none ∧
        LexingError.UnrecognisedCharacter = LexingError.UnrecognisedCharacter) ∨
      (∃ len prio, pickRule (("\"a" : String).data.drop 0) =
          some (len, prio, Action.number) ∧
        parseFloat ⟨['"']⟩ = none ∧
        LexingError.UnrecognisedCharacter =
          LexingError.InvalidNumber "Invalid number: \x7b\x7d")) :=
  ⟨by decide, C7_error_model.1 "\"a" 1
    ⟨⟨0, 1⟩, ['"'], some (Except.error LexingError.UnrecognisedCharacter)⟩
    LexingError.UnrecognisedCharacter (by decide) rfl⟩

/-- Claim C8: every `String` token's carried text is the exact matched
input slice at its range, including the opening and closing double quotes,
with escape sequences left verbatim (no unescaping). -/
theorem C8_string_token_verbatim :
    ∀ (input : String) (initialLine : Nat) (s : String) (p : Pos),
      Except.ok (Token.StringLit (s, p)) ∈ lex input initialLine →
      s.data = (input.data.drop p.range.start).take (p.range.stop - p.range.start) ∧
      ∃ mid, s.data = '"' :: mid ++ ['"'] := by
  intro input initialLine s p hmem
  obtain ⟨st, hst, _, hposOf, _, hstr, htext⟩ := lex_ok_facts hmem
  have hp : p = ⟨initialLine + countNl (input.data.take st.span.start),
      st.span.start + 1, st.span⟩ := Option.some.inj hposOf
  obtain ⟨hdata, mid, hshape⟩ := hstr s p rfl
  subst hp
  refine ⟨?_, mid, ?_⟩
  · rw [hdata]
    exact htext
  · rw [hdata]
    exact hshape

/-- Witness for C8 at the concrete session `lex "\"a\"" 1`. -/
theorem C8_string_token_verbatim_witness :
    Except.ok (Token.StringLit ("\"a\"", ⟨1, 1, ⟨0, 3⟩⟩)) ∈ lex "\"a\"" 1 ∧
    (("\"a\"" : String).data =
        ((("\"a\"" : String)).data.drop 0).take (3 - 0) ∧
      ∃ mid, ("\"a\"" : String).data = '"' :: mid ++ ['"']) :=
  ⟨by decide, C8_string_token_verbatim "\"a\"" 1 "\"a\"" ⟨1, 1, ⟨0, 3⟩⟩ (by decide)⟩

/-- Claim C9: the consumed spans of a session tile the input contiguously
from offset 0 to its length with no gaps or overlaps (so their texts
concatenate back to the original input), and the emitted tokens' ranges
are in non-decreasing start order, pairwise non-overlapping and
non-empty. -/
theorem C9_spans_partition :
    ∀ (input : String) (initialLine : Nat),
      covers 0 input.data.length ((lexTrace input initialLine).map Step.span) ∧
      ((lexTrace input initialLine).map Step.text).flatten = input.data ∧
      List.Forall (fun sp => sp.start < sp.stop) (tokenSpans (lex input initialLine)) ∧
      List.Pairwise (fun a b => a.start ≤ b.start) (tokenSpans (lex input initialLine)) ∧
      List.Pairwise (fun a b => a.stop ≤ b.start) (tokenSpans (lex input initialLine)) := by
  intro input initialLine
  obtain ⟨hcov, hjoin, hsteps⟩ := lexTrace_spec input initialLine
  have hsub : (tokenSpans (lex input initialLine)).Sublist
      ((lexTrace input initialLine).map Step.span) := by
    apply tokenSpans_sublist
    intro st hst tok hemit p hpos
    obtain ⟨hos, htext, hstop, hemitEq⟩ := hsteps st hst
    rw [Nat.sub_zero] at hstop hemitEq
    have hse : (stepEmit (input.data.drop st.span.start) st.span.start
        (initialLine + countNl (input.data.take st.span.start))).1 =
        some (Except.ok tok) := by
      rw [← hemitEq]
      exact hemit
    obtain ⟨hposOf, _, _⟩ := stepEmit_ok hse
    rw [hpos] at hposOf
    obtain rfl := Option.some.inj hposOf
    show (⟨st.span.start, st.span.start +
      matchLen (input.data.drop st.span.start)⟩ : Span) = st.span
    rw [← hstop]
  have hmemspan : ∀ sp ∈ tokenSpans (lex input initialLine),
      0 ≤ sp.start ∧ sp.start < sp.stop ∧ sp.stop ≤ input.data.length :=
    fun sp hsp => covers_mem hcov sp (hsub.subset hsp)
  refine ⟨hcov, hjoin, ?_, ?_, ?_⟩
  · exact List.forall_iff_forall_mem.mpr (fun sp hsp => (hmemspan sp hsp).2.1)
  · have hpw := List.Pairwise.sublist hsub (covers_pairwise hcov)
    exact List.Pairwise.imp_of_mem
      (fun {a b} ha hb hr => by
        have := (hmemspan a ha).2.1
        omega) hpw
  · exact List.Pairwise.sublist hsub (covers_pairwise hcov)

/-- Claim C10: an `InvalidNumber` error produced from a float-parse
failure always carries the fixed literal text `"Invalid number: {}"` — the
placeholder is never filled in with the offending lexeme (the `From` impl
builds the string without formatting), both at the `num_callback` call
site and in any emitted error of any session. -/
theorem C10_invalid_number_diagnostic :
    (∀ (input : String) (initialLine : Nat) (s : String),
      Except.error (LexingError.InvalidNumber s) ∈ lex input initialLine →
      s = "Invalid number: \x7b\x7d") ∧
    (∀ (slice : String) (extras : Nat) (span : Span), parseFloat slice = none →
      num_callback slice extras span =
        Except.error (LexingError.InvalidNumber "Invalid number: \x7b\x7d")) := by
  constructor
  · intro input initialLine s hmem
    obtain ⟨st, hst, hemit⟩ := mem_lex_step hmem
    obtain ⟨_, _, _, hemitEq⟩ := (lexTrace_spec input initialLine).2.2 st hst
    rw [Nat.sub_zero] at hemitEq
    have hse : (stepEmit (input.data.drop st.span.start) st.span.start
        (initialLine + countNl (input.data.take st.span.start))).1 =
        some (Except.error (LexingError.InvalidNumber s)) := by
      rw [← hemitEq]
      exact hemit
    rcases stepEmit_err hse with ⟨_, he⟩ | ⟨_, _, _, _, he⟩
    · exact absurd he (by simp)
    · injection he with h2
  · intro slice extras span h
    exact num_callback_red_none extras span h

/-- Witness for C10 at the concrete non-numeric slice `"abc"`, whose float
parse fails. -/
theorem C10_invalid_number_diagnostic_witness :
    parseFloat "abc" = none ∧
    num_callback "abc" 1 ⟨0, 3⟩ =
      Except.error (LexingError.InvalidNumber "Invalid number: \x7b\x7d") :=
  ⟨by decide, C10_invalid_number_diagnostic.2 "abc" 1 ⟨0, 3⟩ (by decide)⟩

end Hope
